import Mathlib

/-!
Verification development for the telop-generation pipeline in `src/app.py`
(learu-miki/learu_video_tool).

The relevant Python code is shallowly embedded over `List Char` (one element
per Unicode code point, matching Python's `str` indexing and `len`).  Pure
functions of the source become Lean functions; the per-run loops become folds
or structural recursions carrying explicit state.  External collaborators
(the tokenizer, the OpenAI generation call, and JSON decoding) are modelled
as parameters or as already-decoded inputs, as noted at each definition.
-/

/-- Embeds Python `s.replace(old, new)` for a single-character pattern and a
single-character replacement: every occurrence of `old` in `s` becomes `new`,
all other characters are untouched (src/app.py lines 166 and 269). -/
def replaceChar (old new : Char) (s : List Char) : List Char :=
  s.map fun c => if c = old then new else c

/-- Embeds `caption_text.replace("。", " ").replace("、", " ")`
(src/app.py line 166; the same expression appears at line 269): the
ideographic full stop and ideographic comma are each replaced by one ASCII
space.  The second replacement's pattern `、` never equals the first
replacement's output `' '`, so the sequential composition is the obvious one. -/
def normalizeCaption (s : List Char) : List Char :=
  replaceChar '、' ' ' (replaceChar '。' ' ' s)

/-- Embeds Python `str.lower()`; the category strings of interest are ASCII,
where `.lower()` agrees with per-character ASCII lowering. -/
def toLowerStr (s : List Char) : List Char :=
  s.map Char.toLower

/-- Numeric value of a two-digit group, as `int(..)` computes it on the two
matched digit characters. -/
def digits2 (a b : Char) : Nat :=
  10 * (a.toNat - 48) + (b.toNat - 48)

/-- Embeds `re.match(r'^(\d{2}:\d{2}:\d{2})', line)` (src/app.py line 51)
combined with `parse_timecode` (lines 40-42) and `.total_seconds()`:
if the line starts with two digits, a colon, two digits, a colon and two
digits, return the parsed prefix as whole seconds since the epoch; otherwise
return `none` (no match).  `\d` is modelled as the ASCII digits, the digit
class actually exercised by `HH:MM:SS` transcripts. -/
def matchTimecode (line : List Char) : Option Int :=
  match line with
  | a :: b :: x :: c :: d :: y :: e :: f :: _ =>
    if a.isDigit && b.isDigit && x == ':' && c.isDigit && d.isDigit
        && y == ':' && e.isDigit && f.isDigit then
      some (3600 * (digits2 a b : Int) + 60 * digits2 c d + digits2 e f)
    else
      none
  | _ => none

/-- The line-break characters recognised by Python `str.splitlines`. -/
def isLineBreak (c : Char) : Bool :=
  c == '\n' || c == '\r' || c == '\x0b' || c == '\x0c' ||
  c == '\x1c' || c == '\x1d' || c == '\x1e' || c == '\x85' ||
  c == '\u2028' || c == '\u2029'

/-- Worker for `splitLines`; `acc` holds the current (unfinished) line in
reverse order.  A `"\r\n"` pair is one terminator; any other line-break
character ends a line by itself. -/
def splitLinesAux : List Char → List Char → List (List Char)
  | [], acc => if acc = [] then [] else [acc.reverse]
  | c :: rest, acc =>
    if isLineBreak c then
      if c == '\r' then
        match rest with
        | [] => [acc.reverse ++ [c]]
        | d :: rest2 =>
          if d == '\n' then
            (acc.reverse ++ [c, d]) :: splitLinesAux rest2 []
          else
            (acc.reverse ++ [c]) :: splitLinesAux (d :: rest2) []
      else
        (acc.reverse ++ [c]) :: splitLinesAux rest []
    else
      splitLinesAux rest (c :: acc)

/-- Embeds `text.splitlines(keepends=True)` (src/app.py line 45): split at
every line-break character (treating `"\r\n"` as one break), keeping the
terminators attached to their lines. -/
def splitLines (s : List Char) : List (List Char) :=
  splitLinesAux s []

/-- The loop state of `chunk_by_timestamp` (src/app.py lines 46-48):
the chunks emitted so far, the current buffer, and `start_time`.  The buffer
is kept as the list of whole lines appended to it — the source only ever
appends whole lines (`buf += line`), so the buffer string is the
concatenation of this list. -/
structure ChunkState where
  chunks : List (List (List Char))
  buf : List (List Char)
  start_time : Option Int
deriving Repr, DecidableEq

/-- One iteration of the `for line in lines` loop of `chunk_by_timestamp`
(src/app.py lines 50-64).  On a matched timecode line: initialise
`start_time` if unset; otherwise close the buffer when the elapsed time
reaches 20 seconds, resetting the buffer and `start_time` before the final
`buf += line` appends the triggering line.  Unmatched lines are plain
continuations. -/
def chunkStep (st : ChunkState) (line : List Char) : ChunkState :=
  match matchTimecode line with
  | some t =>
    match st.start_time with
    | none => ⟨st.chunks, st.buf ++ [line], some t⟩
    | some s0 =>
      if t - s0 ≥ 20 then
        ⟨st.chunks ++ [st.buf], [line], some t⟩
      else
        ⟨st.chunks, st.buf ++ [line], st.start_time⟩
  | none => ⟨st.chunks, st.buf ++ [line], st.start_time⟩

/-- The whole loop of `chunk_by_timestamp` plus the trailing
`if buf: chunks.append(buf)` (src/app.py lines 65-66), at the granularity of
lines.  The final emptiness test `if buf:` is on the buffer *string*; it
coincides with emptiness of the line list because `splitlines(keepends=True)`
never yields an empty line. -/
def chunkLinesList (lines : List (List Char)) : List (List (List Char)) :=
  let st := lines.foldl chunkStep ⟨[], [], none⟩
  if st.buf = [] then st.chunks else st.chunks ++ [st.buf]

/-- Embeds `chunk_by_timestamp` (src/app.py lines 44-67): split the
transcript into lines with terminators kept, run the elapsed-time loop, and
return the chunks as strings (each chunk is the concatenation of its lines). -/
def chunk_by_timestamp (text : List Char) : List (List Char) :=
  (chunkLinesList (splitLines text)).map List.flatten

/-- A caption candidate record as decoded from the generation service's JSON
(spec §3).  The main validator reads `caption` and `category` with
`cap.get(.., "")` — both may be absent — and passes `start` and `end`
through untouched; `stop?` models the JSON key `end` (a Lean keyword). -/
structure Candidate where
  start? : Option (List Char)
  stop? : Option (List Char)
  caption? : Option (List Char)
  category? : Option (List Char)
deriving Repr, DecidableEq

/-- The category string the validator computes for a record:
`cap.get("category", "").lower()` (src/app.py line 163). -/
def categoryOf (cap : Candidate) : List Char :=
  toLowerStr (cap.category?.getD [])

/-- The caption text stored in a record, defaulted like
`cap.get("caption", "")` (src/app.py line 162). -/
def captionOf (cap : Candidate) : List Char :=
  cap.caption?.getD []

/-- The record an accepted candidate turns into: the source mutates only the
caption (`cap["caption"] = caption_text`, src/app.py lines 170 and 177),
storing the punctuation-normalized text; all other fields are unchanged. -/
def acceptedFrom (orig : Candidate) : Candidate :=
  ⟨orig.start?, orig.stop?, some (normalizeCaption (captionOf orig)), orig.category?⟩

/-- One iteration of the per-record validation loop (src/app.py lines
161-183).  The state is `(filtered_caps, last_category)`.  Note the source
computes `caption_length` from the caption *before* normalization (line 164)
and normalizes afterwards (line 166); the suffix test runs on the normalized
text.  Records with an unrecognised or missing category fall through to
`continue` with the state unchanged. -/
def validateStep (st : List Candidate × List Char) (cap : Candidate) :
    List Candidate × List Char :=
  let caption_raw := cap.caption?.getD []
  let category := toLowerStr (cap.category?.getD [])
  let caption_length := caption_raw.length
  let caption_text := normalizeCaption caption_raw
  if category = "positive".toList ∨ category = "negative".toList ∨
      category = "neutral".toList then
    if caption_length ≤ 17 then
      (st.1 ++ [⟨cap.start?, cap.stop?, some caption_text, cap.category?⟩], category)
    else
      st
  else if category = "point".toList then
    if 15 ≤ caption_length ∧ caption_length < 40 then
      if "です".toList.isSuffixOf caption_text || "ます".toList.isSuffixOf caption_text then
        if st.2 ≠ "point".toList then
          (st.1 ++ [⟨cap.start?, cap.stop?, some caption_text, cap.category?⟩], category)
        else
          st
      else
        st
    else
      st
  else
    st

/-- The per-chunk validation pass (src/app.py lines 159-183): fold the
record loop over the candidates of one chunk, starting from
`filtered_caps = []` and `last_category = ""` — both are re-initialised
inside the per-chunk loop.  Returns the accepted records and the final
`last_category`. -/
def validateCaps (caps : List Candidate) : List Candidate × List Char :=
  caps.foldl validateStep ([], [])

/-- The caption accumulation across chunks
(`all_captions.extend(filtered_caps)`, src/app.py line 185), given the
already-decoded candidate list of each chunk: each chunk is validated with a
fresh `(filtered_caps, last_category)` state and the accepted records are
concatenated in chunk order. -/
def runValidate (chunkResults : List (List Candidate)) : List Candidate :=
  chunkResults.foldl (fun acc caps => acc ++ (validateCaps caps).1) []

/-- The main generation loop (src/app.py lines 103-185) at the level of the
service responses.  Each chunk's response is modelled as its raw text
together with the result of `json.loads` on the cleaned text — `none` when
the cleaned text is not valid JSON (the `json.JSONDecodeError` case).  The
accumulator is `all_captions`; `n` counts the chunks consumed so far.  On a
decode failure the loop performs `st.error(..)`, `st.code(raw)` and
`st.stop()` (lines 154-157): the run halts at chunk `n + 1` with the raw
text attached, and no later response is consumed. -/
def runMainLoop :
    List (List Char × Option (List Candidate)) → List Candidate → Nat →
      List Candidate × Option (Nat × List Char) × Nat
  | [], acc, n => (acc, none, n)
  | (raw, none) :: _, acc, n => (acc, some (n + 1, raw), n + 1)
  | (_, some caps) :: rest, acc, n =>
    runMainLoop rest (acc ++ (validateCaps caps).1) (n + 1)

/-- The observable outcome of one press of the generate button:
`session` is `st.session_state.all_captions` after the script run — the only
place the run's captions survive for display and CSV export (src/app.py
lines 187 and 194-198); `halt` carries the chunk index and the verbatim raw
text shown by `st.code(raw)` when the run stopped at a parse failure;
`processed` is the number of chunk responses consumed. -/
structure MainRunResult where
  session : List Candidate
  halt : Option (Nat × List Char)
  processed : Nat
deriving Repr, DecidableEq

/-- The whole button handler (src/app.py lines 93-192) given the previous
session value and the decoded responses.  If the loop completes, line 187
assigns the accumulated list to the session; if `st.stop()` fired at a parse
failure, the script ends *before* line 187, so the session keeps its
previous value and the accumulated captions of this run are discarded. -/
def runMain (prev : List Candidate)
    (responses : List (List Char × Option (List Candidate))) : MainRunResult :=
  match runMainLoop responses [] 0 with
  | (acc, none, n) => ⟨acc, none, n⟩
  | (_, some e, n) => ⟨prev, some e, n⟩

/-- A side-caption record as decoded by `json.loads` in the side-telop
handler (src/app.py line 266): the keys `start` and `caption` may each be
absent. -/
structure SideRecord where
  start? : Option (List Char)
  caption? : Option (List Char)
deriving Repr, DecidableEq

/-- An accepted side caption: a defaulted start plus the normalized caption
text. -/
structure SideCaption where
  start : List Char
  caption : List Char
deriving Repr, DecidableEq

/-- The record handling of the side-telop loop (src/app.py lines 266-271).
Only a missing `start` is defaulted (`cap["start"] = "00:00:00:00"`).  When
the `caption` key is missing, `cap["caption"]` raises `KeyError`; that
exception is not a `json.JSONDecodeError`, so it escapes the inner handler
(line 272) and is caught by the enclosing `except Exception` (line 277),
which reports a generic error and lets the chapter loop continue — modelled
as the `none` outcome (no caption appended, no halt). -/
def processSideRecord (rec : SideRecord) : Option SideCaption :=
  let start := rec.start?.getD ("00:00:00:00".toList)
  match rec.caption? with
  | none => none
  | some cap => some ⟨start, normalizeCaption cap⟩

/-- The decoded service response for one chapter of the side-telop loop:
either the cleaned text failed `json.loads` (carrying the raw text), or it
decoded to a record. -/
inductive SideInput where
  | parseFail (raw : List Char)
  | record (rec : SideRecord)
deriving Repr, DecidableEq

/-- The side-telop chapter loop (src/app.py lines 221-275): on a decode
failure the script shows the raw text and stops (`st.stop()`, line 275) —
the loop halts with the raw text attached; on a record whose handling raises
`KeyError` the generic handler reports and the loop continues; otherwise the
produced side caption is appended. -/
def runSideLoop : List SideInput → List SideCaption → List SideCaption × Option (List Char)
  | [], acc => (acc, none)
  | SideInput.parseFail raw :: _, acc => (acc, some raw)
  | SideInput.record rec :: rest, acc =>
    match processSideRecord rec with
    | none => runSideLoop rest acc
    | some c => runSideLoop rest (acc ++ [c])

/-- The constant `MAX_CHAPTERS` (src/app.py line 208). -/
def MAX_CHAPTERS : Nat := 8

/-- The merge loop of the side-telop handler (src/app.py lines 211-217):
walk the chapters with a 1-based index, appending each to the buffer, and
flush the buffer as a merged group whenever `idx % chunk_size == 0` or `idx`
is the last index.  The final flush at `idx == total` means no buffered text
survives the loop. -/
def mergeChaptersLoop (chunk_size total : Nat) :
    Nat → List Char → List (List Char) → List (List Char)
  | _, _, [] => []
  | idx, buf, ch :: rest =>
    let buf2 := buf ++ ch
    if idx % chunk_size = 0 ∨ idx = total then
      buf2 :: mergeChaptersLoop chunk_size total (idx + 1) [] rest
    else
      mergeChaptersLoop chunk_size total (idx + 1) buf2 rest

/-- The chapter-merging reducer (src/app.py lines 207-218): when more than
`MAX_CHAPTERS` chapters exist, merge them with
`chunk_size = len(chapters) // MAX_CHAPTERS`; otherwise keep them as is. -/
def mergeChapters (chapters : List (List Char)) : List (List Char) :=
  if chapters.length > MAX_CHAPTERS then
    mergeChaptersLoop (chapters.length / MAX_CHAPTERS) chapters.length 1 [] chapters
  else
    chapters

/-- Modelled from the spec: the token-budget chunking policy of §4.2.  The
repository's source defines the tokenizer helper `count_tokens` (src/app.py
lines 36-37) but contains no token-budget chunker — only the elapsed-time
one — so the walk is taken from the spec's words: before appending a line,
if `runningCount + lineTokenCount > chunkTokenBudget` and the buffer is
non-empty, close the buffer and start a new one with this line; otherwise
append the line and add its count; at end of input flush a non-empty buffer.
The tokenizer is the external collaborator, passed as `count`. -/
def chunkByTokensLoop (count : List Char → Nat) (budget : Nat) :
    List (List Char) → List (List (List Char)) → List (List Char) → Nat →
      List (List (List Char))
  | [], chunks, buf, _ => if buf = [] then chunks else chunks ++ [buf]
  | line :: rest, chunks, buf, running =>
    if running + count line > budget ∧ buf ≠ [] then
      chunkByTokensLoop count budget rest (chunks ++ [buf]) [line] (count line)
    else
      chunkByTokensLoop count budget rest chunks (buf ++ [line]) (running + count line)

/-- Modelled from the spec: the token-budget chunker over the transcript's
lines, producing each chunk as its list of lines. -/
def chunkByTokens (count : List Char → Nat) (budget : Nat)
    (lines : List (List Char)) : List (List (List Char)) :=
  chunkByTokensLoop count budget lines [] [] 0

/-- The no-two-consecutive-points relation of the alternation invariant. -/
def noConsecPoint (a b : Candidate) : Prop :=
  ¬(categoryOf a = "point".toList ∧ categoryOf b = "point".toList)

instance (a b : Candidate) : Decidable (noConsecPoint a b) :=
  inferInstanceAs
    (Decidable ¬(categoryOf a = "point".toList ∧ categoryOf b = "point".toList))

/-- The facts guaranteed for a record the per-record validator accepts
(src/app.py lines 168-179): its (lowered) category is one of the four known
ones; a positive/negative/neutral record's stored caption is at most 17
characters; a point record's stored caption has length in [15, 40) and ends
in one of the two formal sentence-ending suffixes.  The stored caption is the
normalized text, whose length equals the raw length the source measured. -/
def okAccepted (c : Candidate) : Prop :=
  (categoryOf c = "positive".toList ∨ categoryOf c = "negative".toList ∨
     categoryOf c = "neutral".toList ∨ categoryOf c = "point".toList)
  ∧ ((categoryOf c = "positive".toList ∨ categoryOf c = "negative".toList ∨
       categoryOf c = "neutral".toList) → (captionOf c).length ≤ 17)
  ∧ (categoryOf c = "point".toList →
       15 ≤ (captionOf c).length ∧ (captionOf c).length < 40
       ∧ ("です".toList.isSuffixOf (captionOf c)
            || "ます".toList.isSuffixOf (captionOf c)) = true)

lemma splitLinesAux_nil (acc : List Char) :
    splitLinesAux [] acc = if acc = [] then [] else [acc.reverse] := rfl

lemma splitLinesAux_cons (c : Char) (rest acc : List Char) :
    splitLinesAux (c :: rest) acc =
      if isLineBreak c then
        if c == '\r' then
          match rest with
          | [] => [acc.reverse ++ [c]]
          | d :: rest2 =>
            if d == '\n' then
              (acc.reverse ++ [c, d]) :: splitLinesAux rest2 []
            else
              (acc.reverse ++ [c]) :: splitLinesAux (d :: rest2) []
        else
          (acc.reverse ++ [c]) :: splitLinesAux rest []
      else
        splitLinesAux rest (c :: acc) := by
  rw [splitLinesAux.eq_def]

/-- Concatenating the lines of `splitLinesAux` recovers the pending
accumulator followed by the remaining input. -/
lemma splitLinesAux_flatten (l acc : List Char) :
    (splitLinesAux l acc).flatten = acc.reverse ++ l := by
  induction l, acc using splitLinesAux.induct with
  | case1 =>
    simp [splitLinesAux]
  | case2 acc h =>
    simp [splitLinesAux, h]
  | case3 c acc h1 h2 =>
    simp [splitLinesAux, h1, h2]
  | case4 c acc h1 h2 d rest2 h3 ih =>
    simp [splitLinesAux, h1, h2, h3, ih]
  | case5 c acc h1 h2 d rest2 h3 ih =>
    simp [splitLinesAux, h1, h2, h3, ih]
  | case6 c rest acc h1 h2 ih =>
    rw [splitLinesAux_cons]
    simp [h1, h2, ih]
  | case7 c rest acc h1 ih =>
    rw [splitLinesAux_cons]
    simp [h1, ih]

/-- Every line produced by `splitLinesAux` is non-empty (the accumulator
closes the final line only when it is itself non-empty). -/
lemma splitLinesAux_ne_nil (l acc : List Char) :
    ∀ line ∈ splitLinesAux l acc, line ≠ [] := by
  induction l, acc using splitLinesAux.induct with
  | case1 =>
    simp [splitLinesAux]
  | case2 acc h =>
    simp [splitLinesAux, h]
  | case3 c acc h1 h2 =>
    simp [splitLinesAux, h1, h2]
  | case4 c acc h1 h2 d rest2 h3 ih =>
    intro line hl
    simp only [splitLinesAux, h1, h2, h3, if_true, List.mem_cons] at hl
    rcases hl with h | h
    · subst h; simp
    · exact ih line h
  | case5 c acc h1 h2 d rest2 h3 ih =>
    intro line hl
    simp only [splitLinesAux, h1, h2, h3, if_true, if_false, Bool.false_eq_true,
      List.mem_cons] at hl
    rcases hl with h | h
    · subst h; simp
    · exact ih line h
  | case6 c rest acc h1 h2 ih =>
    intro line hl
    rw [splitLinesAux_cons] at hl
    simp only [h1, h2, if_true, if_false, Bool.false_eq_true, List.mem_cons] at hl
    rcases hl with h | h
    · subst h; simp
    · exact ih line h
  | case7 c rest acc h1 ih =>
    intro line hl
    rw [splitLinesAux_cons] at hl
    simp only [h1, if_false, Bool.false_eq_true] at hl
    exact ih line hl

/-- Python `"".join(text.splitlines(keepends=True)) == text`: splitting with
kept terminators loses nothing. -/
lemma splitLines_flatten (s : List Char) : (splitLines s).flatten = s := by
  simpa using splitLinesAux_flatten s []

/-- `splitlines(keepends=True)` never produces an empty line. -/
lemma splitLines_ne_nil (s : List Char) : ∀ line ∈ splitLines s, line ≠ [] :=
  splitLinesAux_ne_nil s []

/-- Case analysis on one loop iteration of `chunk_by_timestamp`: either the
line is appended to the buffer (continuation, fresh `start_time`, or elapsed
time below the threshold), or — only with `start_time` set — the buffer is
closed as a chunk and the line starts the new buffer. -/
lemma chunkStep_shape (st : ChunkState) (line : List Char) :
    ((chunkStep st line).chunks = st.chunks ∧ (chunkStep st line).buf = st.buf ++ [line])
    ∨ (st.start_time ≠ none ∧ (chunkStep st line).chunks = st.chunks ++ [st.buf]
        ∧ (chunkStep st line).buf = [line]) := by
  rcases hm : matchTimecode line with _ | t
  · left
    simp [chunkStep, hm]
  · rcases hst : st.start_time with _ | s0
    · left
      simp [chunkStep, hm, hst]
    · by_cases hd : t - s0 ≥ 20
      · right
        refine ⟨by simp [hst], ?_, ?_⟩ <;> simp [chunkStep, hm, hst, hd]
      · left
        simp [chunkStep, hm, hst, hd]

/-- Invariant of the `chunk_by_timestamp` loop: the emitted chunks followed
by the buffer always hold exactly the lines consumed so far; the buffer is
non-empty whenever `start_time` is set; no empty line ever enters the buffer
or a chunk; and every emitted chunk is a non-empty run of non-empty lines. -/
lemma chunk_fold_inv :
    ∀ (lines : List (List Char)) (st : ChunkState),
      (st.start_time ≠ none → st.buf ≠ []) →
      (∀ l ∈ lines, l ≠ []) →
      (∀ l ∈ st.buf, l ≠ []) →
      ((lines.foldl chunkStep st).chunks.flatten ++ (lines.foldl chunkStep st).buf
          = st.chunks.flatten ++ st.buf ++ lines)
      ∧ ((lines.foldl chunkStep st).start_time ≠ none → (lines.foldl chunkStep st).buf ≠ [])
      ∧ (∀ l ∈ (lines.foldl chunkStep st).buf, l ≠ [])
      ∧ (∀ c ∈ (lines.foldl chunkStep st).chunks,
          c ∈ st.chunks ∨ (c ≠ [] ∧ ∀ l ∈ c, l ≠ [])) := by
  intro lines
  induction lines with
  | nil =>
    intro st h1 h2 h3
    exact ⟨by simp, h1, h3, fun c hc => Or.inl hc⟩
  | cons line rest ih =>
    intro st h1 h2 h3
    have hline : line ≠ [] := h2 line (by simp)
    have h2r : ∀ l ∈ rest, l ≠ [] := fun l hl => h2 l (by simp [hl])
    rcases chunkStep_shape st line with ⟨hck, hbf⟩ | ⟨hstt, hck, hbf⟩
    · have hbuf' : ∀ l ∈ (chunkStep st line).buf, l ≠ [] := by
        rw [hbf]
        intro l hl
        rcases List.mem_append.mp hl with h | h
        · exact h3 l h
        · simpa using List.mem_singleton.mp h ▸ hline
      obtain ⟨i1, i2, i3, i4⟩ := ih (chunkStep st line) (fun _ => by simp [hbf]) h2r hbuf'
      refine ⟨?_, i2, i3, ?_⟩
      · rw [List.foldl_cons, i1, hck, hbf]
        simp
      · intro c hc
        rcases i4 c (by simpa [List.foldl_cons] using hc) with h | h
        · exact Or.inl (hck ▸ h)
        · exact Or.inr h
    · have hbufne : st.buf ≠ [] := h1 hstt
      have hbuf' : ∀ l ∈ (chunkStep st line).buf, l ≠ [] := by
        rw [hbf]
        intro l hl
        simpa using List.mem_singleton.mp hl ▸ hline
      obtain ⟨i1, i2, i3, i4⟩ := ih (chunkStep st line) (fun _ => by simp [hbf]) h2r hbuf'
      refine ⟨?_, i2, i3, ?_⟩
      · rw [List.foldl_cons, i1, hck, hbf]
        simp
      · intro c hc
        rcases i4 c (by simpa [List.foldl_cons] using hc) with h | h
        · rw [hck] at h
          rcases List.mem_append.mp h with h' | h'
          · exact Or.inl h'
          · have : c = st.buf := List.mem_singleton.mp h'
            subst this
            exact Or.inr ⟨hbufne, h3⟩
        · exact Or.inr h

/-- The line-level chunker partitions the input lines exactly: flattening
the chunks gives back the lines in order, and every chunk is a non-empty
run of non-empty lines. -/
lemma chunkLinesList_spec (lines : List (List Char)) (hl : ∀ l ∈ lines, l ≠ []) :
    (chunkLinesList lines).flatten = lines
    ∧ ∀ c ∈ chunkLinesList lines, c ≠ [] ∧ ∀ l ∈ c, l ≠ [] := by
  obtain ⟨h1, _, h3, h4⟩ := chunk_fold_inv lines ⟨[], [], none⟩ (by simp) hl (by simp)
  unfold chunkLinesList
  by_cases hb : (lines.foldl chunkStep ⟨[], [], none⟩).buf = []
  · rw [hb] at h1
    simp only [hb, if_true, eq_self_iff_true]
    constructor
    · simpa using h1
    · intro c hc
      rcases h4 c hc with h | h
      · simp at h
      · exact h
  · simp only [hb, if_false]
    constructor
    · simp only [List.flatten_append, List.flatten_cons, List.flatten_nil, List.append_nil]
      simpa using h1
    · intro c hc
      rcases List.mem_append.mp hc with h | h
      · rcases h4 c h with h' | h'
        · simp at h'
        · exact h'
      · have : c = (lines.foldl chunkStep ⟨[], [], none⟩).buf := List.mem_singleton.mp h
        subst this
        exact ⟨hb, h3⟩

/-- Flattening a map of flatten equals flattening twice. -/
lemma flatten_map_flatten (L : List (List (List Char))) :
    (L.map List.flatten).flatten = L.flatten.flatten := by
  induction L with
  | nil => simp
  | cons x xs ih => simp [ih]

/-- A non-empty list of non-empty strings concatenates to a non-empty
string. -/
lemma flatten_ne_nil {c : List (List Char)} (h : c ≠ []) (h2 : ∀ l ∈ c, l ≠ []) :
    c.flatten ≠ [] := by
  rcases c with _ | ⟨x, xs⟩
  · exact absurd rfl h
  · have hx : x ≠ [] := h2 x (by simp)
    simp only [List.flatten_cons, ne_eq, List.append_eq_nil]
    intro hcon
    exact hx hcon.1

/-- Punctuation normalization is a character-wise map: the two ideographic
punctuation marks become an ASCII space, every other character is fixed. -/
lemma normalizeCaption_eq_map (s : List Char) :
    normalizeCaption s = s.map (fun c => if c = '。' ∨ c = '、' then ' ' else c) := by
  unfold normalizeCaption replaceChar
  rw [List.map_map]
  apply List.map_congr_left
  intro c _
  by_cases h1 : c = '。'
  · subst h1
    decide
  · by_cases h2 : c = '、'
    · subst h2
      decide
    · simp [Function.comp, h1, h2]

/-- Normalization replaces characters one for one, so it preserves length
(the source measures `caption_length` before normalizing, but both lengths
agree). -/
lemma normalizeCaption_length (s : List Char) :
    (normalizeCaption s).length = s.length := by
  simp [normalizeCaption, replaceChar]

/-- A normalized caption contains neither ideographic punctuation mark. -/
lemma normalizeCaption_no_punct (s : List Char) :
    ∀ c ∈ normalizeCaption s, c ≠ '。' ∧ c ≠ '、' := by
  rw [normalizeCaption_eq_map]
  intro c hc
  obtain ⟨x, _, rfl⟩ := List.mem_map.mp hc
  by_cases h1 : x = '。'
  · simp [h1]
  · by_cases h2 : x = '、'
    · simp [h1, h2]
    · simp [h1, h2]

lemma categoryOf_acceptedFrom (cap : Candidate) :
    categoryOf (acceptedFrom cap) = categoryOf cap := rfl

lemma captionOf_acceptedFrom (cap : Candidate) :
    captionOf (acceptedFrom cap) = normalizeCaption (captionOf cap) := rfl

/-- The validation step written with the named projections: each branch
either appends `acceptedFrom cap` and records its category as the new
`last_category`, or returns the state unchanged. -/
lemma validateStep_eq (st : List Candidate × List Char) (cap : Candidate) :
    validateStep st cap =
      if categoryOf cap = "positive".toList ∨ categoryOf cap = "negative".toList ∨
          categoryOf cap = "neutral".toList then
        if (captionOf cap).length ≤ 17 then
          (st.1 ++ [acceptedFrom cap], categoryOf cap)
        else
          st
      else if categoryOf cap = "point".toList then
        if 15 ≤ (captionOf cap).length ∧ (captionOf cap).length < 40 then
          if "です".toList.isSuffixOf (normalizeCaption (captionOf cap))
              || "ます".toList.isSuffixOf (normalizeCaption (captionOf cap)) then
            if st.2 ≠ "point".toList then
              (st.1 ++ [acceptedFrom cap], categoryOf cap)
            else
              st
          else
            st
        else
          st
      else
        st := rfl

/-- Soundness of one validation step: the output list extends the input list
with at most the accepted form of the current record, and an accepted record
satisfies all of its category's rules. -/
lemma validateStep_mem (st : List Candidate × List Char) (cap : Candidate) :
    ∀ c ∈ (validateStep st cap).1, c ∈ st.1 ∨ (c = acceptedFrom cap ∧ okAccepted c) := by
  intro c hc
  rw [validateStep_eq] at hc
  split_ifs at hc with h1 h2 h3 h4 h5 h6
  · rcases List.mem_append.mp hc with h | h
    · exact Or.inl h
    · have hce : c = acceptedFrom cap := List.mem_singleton.mp h
      subst hce
      refine Or.inr ⟨rfl, ?_, ?_, ?_⟩
      · rw [categoryOf_acceptedFrom]
        rcases h1 with h | h | h
        · exact Or.inl h
        · exact Or.inr (Or.inl h)
        · exact Or.inr (Or.inr (Or.inl h))
      · intro _
        rw [captionOf_acceptedFrom, normalizeCaption_length]
        exact h2
      · intro hpt
        rw [categoryOf_acceptedFrom] at hpt
        rcases h1 with h | h | h <;> rw [h] at hpt <;> exact absurd hpt (by decide)
  · exact Or.inl hc
  · rcases List.mem_append.mp hc with h | h
    · exact Or.inl h
    · have hce : c = acceptedFrom cap := List.mem_singleton.mp h
      subst hce
      refine Or.inr ⟨rfl, ?_, ?_, ?_⟩
      · rw [categoryOf_acceptedFrom]
        exact Or.inr (Or.inr (Or.inr h3))
      · intro hin
        rw [categoryOf_acceptedFrom] at hin
        exact absurd hin h1
      · intro _
        rw [captionOf_acceptedFrom, normalizeCaption_length]
        exact ⟨h4.1, h4.2, h5⟩
  · exact Or.inl hc
  · exact Or.inl hc
  · exact Or.inl hc
  · exact Or.inl hc

/-- Soundness of the per-chunk fold: every output record comes from some
input candidate, in accepted form, and satisfies its category's rules. -/
lemma validateFold_mem :
    ∀ (caps : List Candidate) (st : List Candidate × List Char) (c : Candidate),
      c ∈ (caps.foldl validateStep st).1 →
      c ∈ st.1 ∨ ∃ orig ∈ caps, c = acceptedFrom orig ∧ okAccepted c := by
  intro caps
  induction caps with
  | nil =>
    intro st c hc
    exact Or.inl hc
  | cons a caps ih =>
    intro st c hc
    rcases ih (validateStep st a) c hc with h | h
    · rcases validateStep_mem st a c h with h' | h'
      · exact Or.inl h'
      · exact Or.inr ⟨a, by simp, h'.1, h'.2⟩
    · obtain ⟨orig, ho, he⟩ := h
      exact Or.inr ⟨orig, by simp [ho], he⟩

/-- One validation step preserves the alternation invariant: the accepted
list never holds two adjacent `point` records, and its last record's
category always equals `last_category`. -/
lemma validateStep_chain (st : List Candidate × List Char) (cap : Candidate)
    (hch : List.Chain' noConsecPoint st.1)
    (hlast : ∀ x, st.1.getLast? = some x → categoryOf x = st.2) :
    List.Chain' noConsecPoint (validateStep st cap).1
    ∧ ∀ x, (validateStep st cap).1.getLast? = some x →
        categoryOf x = (validateStep st cap).2 := by
  rw [validateStep_eq]
  split_ifs with h1 h2 h3 h4 h5 h6
  · constructor
    · refine List.chain'_append.mpr ⟨hch, List.chain'_singleton _, ?_⟩
      intro x hx y hy
      have hy' : y = acceptedFrom cap := (by simpa using hy : acceptedFrom cap = y).symm
      subst hy'
      intro hcon
      rw [categoryOf_acceptedFrom] at hcon
      rcases h1 with h | h | h <;> rw [h] at hcon <;> exact absurd hcon.2 (by decide)
    · intro x hx
      rw [List.getLast?_concat] at hx
      have : x = acceptedFrom cap := by simpa using hx.symm
      subst this
      exact categoryOf_acceptedFrom cap
  · exact ⟨hch, hlast⟩
  · constructor
    · refine List.chain'_append.mpr ⟨hch, List.chain'_singleton _, ?_⟩
      intro x hx y hy
      have hy' : y = acceptedFrom cap := (by simpa using hy : acceptedFrom cap = y).symm
      subst hy'
      intro hcon
      have hx' : st.1.getLast? = some x := by simpa using hx
      have := hlast x hx'
      rw [this] at hcon
      exact h6 hcon.1
    · intro x hx
      rw [List.getLast?_concat] at hx
      have : x = acceptedFrom cap := by simpa using hx.symm
      subst this
      exact categoryOf_acceptedFrom cap
  · exact ⟨hch, hlast⟩
  · exact ⟨hch, hlast⟩
  · exact ⟨hch, hlast⟩
  · exact ⟨hch, hlast⟩

/-- The per-chunk fold preserves the alternation invariant. -/
lemma validateFold_chain :
    ∀ (caps : List Candidate) (st : List Candidate × List Char),
      List.Chain' noConsecPoint st.1 →
      (∀ x, st.1.getLast? = some x → categoryOf x = st.2) →
      List.Chain' noConsecPoint (caps.foldl validateStep st).1 := by
  intro caps
  induction caps with
  | nil =>
    intro st ha _
    exact ha
  | cons a caps ih =>
    intro st ha hb
    obtain ⟨h1, h2⟩ := validateStep_chain st a ha hb
    exact ih (validateStep st a) h1 h2

/-- Accumulating over chunks is concatenation of the per-chunk results. -/
lemma foldl_append_eq_flatten {α β : Type} (f : α → List β) :
    ∀ (l : List α) (acc : List β),
      l.foldl (fun a x => a ++ f x) acc = acc ++ (l.map f).flatten := by
  intro l
  induction l with
  | nil =>
    intro acc
    simp
  | cons x xs ih =>
    intro acc
    simp [ih]

/-- If every response before some chunk decodes and that chunk's does not,
the main loop stops exactly there, discarding nothing it already consumed
but consuming nothing further, and reports the failing chunk's 1-based
index with its verbatim raw text. -/
lemma runMainLoop_halt :
    ∀ (pre : List (List Char × Option (List Candidate))),
      (∀ p ∈ pre, p.2 ≠ none) →
      ∀ (acc : List Candidate) (n : Nat) (raw : List Char)
        (post : List (List Char × Option (List Candidate))),
        ∃ acc', runMainLoop (pre ++ (raw, none) :: post) acc n
          = (acc', some (n + pre.length + 1, raw), n + pre.length + 1) := by
  intro pre
  induction pre with
  | nil =>
    intro _ acc n raw post
    exact ⟨acc, rfl⟩
  | cons p pre ih =>
    intro hp acc n raw post
    obtain ⟨rawp, op⟩ := p
    have hop : op ≠ none := hp (rawp, op) (by simp)
    rcases op with _ | caps
    · exact absurd rfl hop
    · have hp' : ∀ q ∈ pre, q.2 ≠ none := fun q hq => hp q (by simp [hq])
      obtain ⟨acc', h⟩ := ih hp' (acc ++ (validateCaps caps).1) (n + 1) raw post
      refine ⟨acc', ?_⟩
      simp only [List.cons_append, runMainLoop, List.length_cons]
      have heq : n + (pre.length + 1) + 1 = n + 1 + pre.length + 1 := by omega
      rw [heq]
      exact h

/-- Invariant of the token-budget loop: provided the running count is the
token sum of the buffer, every chunk the loop ever emits either fits the
budget or is a single oversized line. -/
lemma chunkByTokensLoop_inv (count : List Char → Nat) (budget : Nat) :
    ∀ (lines : List (List Char)) (chunks : List (List (List Char)))
      (buf : List (List Char)) (running : Nat),
      running = (buf.map count).sum →
      (∀ c ∈ chunks, (c.map count).sum ≤ budget ∨ ∃ l, c = [l] ∧ budget < count l) →
      (buf = [] ∨ (buf.map count).sum ≤ budget ∨ ∃ l, buf = [l] ∧ budget < count l) →
      ∀ c ∈ chunkByTokensLoop count budget lines chunks buf running,
        (c.map count).sum ≤ budget ∨ ∃ l, c = [l] ∧ budget < count l := by
  intro lines
  induction lines with
  | nil =>
    intro chunks buf running h1 h2 h3 c hc
    simp only [chunkByTokensLoop] at hc
    split_ifs at hc with hb
    · exact h2 c hc
    · rcases List.mem_append.mp hc with h | h
      · exact h2 c h
      · have : c = buf := List.mem_singleton.mp h
        subst this
        rcases h3 with h | h
        · exact absurd h hb
        · exact h
  | cons line rest ih =>
    intro chunks buf running h1 h2 h3 c hc
    simp only [chunkByTokensLoop] at hc
    split_ifs at hc with hcond
    · obtain ⟨hover, hbne⟩ := hcond
      refine ih _ _ _ (by simp) ?_ ?_ c hc
      · intro c' hc'
        rcases List.mem_append.mp hc' with h | h
        · exact h2 c' h
        · have : c' = buf := List.mem_singleton.mp h
          subst this
          rcases h3 with h | h
          · exact absurd h hbne
          · exact h
      · by_cases hl : count line ≤ budget
        · exact Or.inr (Or.inl (by simp [hl]))
        · exact Or.inr (Or.inr ⟨line, rfl, by omega⟩)
    · have hsum : running + count line = ((buf ++ [line]).map count).sum := by
        simp [h1]
      refine ih _ _ _ hsum h2 ?_ c hc
      rcases Decidable.not_and_iff_or_not.mp hcond with h | h
      · exact Or.inr (Or.inl (hsum ▸ Nat.le_of_not_lt h))
      · have : buf = [] := Decidable.not_not.mp h
        subst this
        by_cases hl : count line ≤ budget
        · exact Or.inr (Or.inl (by simp [hl]))
        · exact Or.inr (Or.inr ⟨line, rfl, by omega⟩)

/-- C1 (counterexample): the alternation state is *not* carried across
chunks: `last_category` is re-initialised to `""` inside the per-chunk loop
(src/app.py line 160), so a valid `point` candidate in each of two
consecutive chunks is accepted in both, and the accumulated sequence holds
two consecutive `point` records — contrary to the claim. -/
theorem C1_alternation_not_carried_counterexample :
    (runValidate
        [[⟨none, none, some ("これはとても大事な説明テストです".toList), some ("point".toList)⟩],
         [⟨none, none, some ("これはとても大事な説明テストです".toList), some ("point".toList)⟩]]).map
        categoryOf
      = ["point".toList, "point".toList]
    ∧ ¬ List.Chain' noConsecPoint
        (runValidate
          [[⟨none, none, some ("これはとても大事な説明テストです".toList), some ("point".toList)⟩],
           [⟨none, none, some ("これはとても大事な説明テストです".toList), some ("point".toList)⟩]]) := by
  constructor
  · decide
  · have hout : runValidate
        [[⟨none, none, some ("これはとても大事な説明テストです".toList), some ("point".toList)⟩],
         [⟨none, none, some ("これはとても大事な説明テストです".toList), some ("point".toList)⟩]]
      = [⟨none, none, some ("これはとても大事な説明テストです".toList), some ("point".toList)⟩,
         ⟨none, none, some ("これはとても大事な説明テストです".toList), some ("point".toList)⟩] := by
      decide
    rw [hout]
    intro hch
    exact List.chain'_pair.mp hch ⟨by decide, by decide⟩

/-- C1 (amended): the run concatenates per-chunk validations, each started
from a fresh `(filtered_caps, last_category) = ([], "")` state; within each
single chunk's accepted sequence no two consecutive records have category
`point`.  Across a chunk boundary the invariant can fail, as the
counterexample shows. -/
theorem C1_alternation_within_chunk :
    (∀ chunkResults : List (List Candidate),
        runValidate chunkResults
          = (chunkResults.map fun caps => (validateCaps caps).1).flatten)
    ∧ ∀ caps : List Candidate, List.Chain' noConsecPoint (validateCaps caps).1 := by
  constructor
  · intro chunkResults
    have h := foldl_append_eq_flatten (fun caps => (validateCaps caps).1) chunkResults []
    simpa [runValidate] using h
  · intro caps
    exact validateFold_chain caps ([], []) (by simp) (by simp)

/-- C2 (confirmed): concatenating the chunks of `chunk_by_timestamp`
reproduces the input exactly; no chunk is empty; and each chunk is the
concatenation of a consecutive run of whole input lines (terminators
preserved), witnessed by the line-level partition. -/
theorem C2_lossless_repartition (text : List Char) :
    (chunk_by_timestamp text).flatten = text
    ∧ (∀ c ∈ chunk_by_timestamp text, c ≠ [])
    ∧ ∃ segs : List (List (List Char)),
        segs.flatten = splitLines text ∧ chunk_by_timestamp text = segs.map List.flatten := by
  obtain ⟨hflat, hch⟩ := chunkLinesList_spec (splitLines text) (splitLines_ne_nil text)
  refine ⟨?_, ?_, chunkLinesList (splitLines text), hflat, rfl⟩
  · unfold chunk_by_timestamp
    rw [flatten_map_flatten, hflat, splitLines_flatten]
  · intro c hc
    obtain ⟨m, hm, rfl⟩ := List.mem_map.mp hc
    exact flatten_ne_nil (hch m hm).1 (hch m hm).2

/-- C2 witness: the lossless-repartition facts at a concrete transcript. -/
theorem C2_lossless_repartition_witness :
    (chunk_by_timestamp ("00:00:00 a\nmid\n00:00:30 b\n".toList)).flatten
        = "00:00:00 a\nmid\n00:00:30 b\n".toList
    ∧ (∀ c ∈ chunk_by_timestamp ("00:00:00 a\nmid\n00:00:30 b\n".toList), c ≠ [])
    ∧ ∃ segs : List (List (List Char)),
        segs.flatten = splitLines ("00:00:00 a\nmid\n00:00:30 b\n".toList)
        ∧ chunk_by_timestamp ("00:00:00 a\nmid\n00:00:30 b\n".toList)
            = segs.map List.flatten :=
  C2_lossless_repartition _

/-- C3 (code bug): the merge loop flushes at every index divisible by
`chunk_size = len // MAX_CHAPTERS` *and* at the last index, so 9 chapters
merge into 9 groups and 17 chapters into 9 groups — both exceed
`MAX_CHAPTERS = 8`, and the remainder forms its own group instead of being
absorbed into the last one. -/
theorem C3_merge_exceeds_max_chapters :
    (mergeChapters (["a", "b", "c", "d", "e", "f", "g", "h", "i"].map String.toList)).length = 9
    ∧ (mergeChapters (List.replicate 17 ['x'])).length = 9
    ∧ MAX_CHAPTERS = 8 := by
  refine ⟨by decide, by decide, rfl⟩

/-- C4 (confirmed): when the elapsed time reaches the 20-second threshold,
the step closes the current buffer *before* appending the triggering line:
the buffer becomes a chunk, the new buffer is exactly the triggering line,
and `start_time` becomes its timecode; the scenario from the spec produces
exactly the two stated chunks. -/
theorem C4_close_before_append :
    (∀ (st : ChunkState) (line : List Char) (t s0 : Int),
        matchTimecode line = some t → st.start_time = some s0 → t - s0 ≥ 20 →
        chunkStep st line = ⟨st.chunks ++ [st.buf], [line], some t⟩)
    ∧ chunk_by_timestamp ("00:00:00 Hello\n00:00:25 World\n".toList)
        = ["00:00:00 Hello\n".toList, "00:00:25 World\n".toList] := by
  constructor
  · intro st line t s0 hm hst hd
    simp [chunkStep, hm, hst, hd]
  · decide

/-- C4 witness: the closing step at a concrete state and line. -/
theorem C4_close_before_append_witness :
    chunkStep ⟨[], ["x".toList], some 0⟩ ("00:00:30 y\n".toList)
        = ⟨[["x".toList]], ["00:00:30 y\n".toList], some 30⟩
    ∧ chunk_by_timestamp ("00:00:00 Hello\n00:00:25 World\n".toList)
        = ["00:00:00 Hello\n".toList, "00:00:25 World\n".toList] :=
  ⟨C4_close_before_append.1 ⟨[], ["x".toList], some 0⟩ ("00:00:30 y\n".toList) 30 0
      (by decide) rfl (by decide),
   C4_close_before_append.2⟩

/-- C5 (confirmed): every record accepted by the category validator has one
of the four known (lowered) categories; a positive/negative/neutral record's
stored (normalized) caption has length at most 17; a point record's stored
caption has length in [15, 40) and ends in です or ます.  (The source
measures the length before normalization, but normalization is length
preserving.) -/
theorem C5_accepted_length_rules (caps : List Candidate) (cap : Candidate)
    (h : cap ∈ (validateCaps caps).1) :
    (categoryOf cap = "positive".toList ∨ categoryOf cap = "negative".toList ∨
       categoryOf cap = "neutral".toList ∨ categoryOf cap = "point".toList)
    ∧ ((categoryOf cap = "positive".toList ∨ categoryOf cap = "negative".toList ∨
         categoryOf cap = "neutral".toList) → (captionOf cap).length ≤ 17)
    ∧ (categoryOf cap = "point".toList →
         15 ≤ (captionOf cap).length ∧ (captionOf cap).length < 40
         ∧ ("です".toList.isSuffixOf (captionOf cap)
              || "ます".toList.isSuffixOf (captionOf cap)) = true) := by
  rcases validateFold_mem caps ([], []) cap h with h' | h'
  · simp at h'
  · obtain ⟨orig, _, _, hok⟩ := h'
    exact hok

/-- C5 witness: a concrete accepted neutral record and its guarantees. -/
theorem C5_accepted_length_rules_witness :
    (⟨none, none, some ("ok".toList), some ("neutral".toList)⟩ : Candidate) ∈
        (validateCaps [⟨none, none, some ("ok".toList), some ("neutral".toList)⟩]).1
    ∧ ((categoryOf (⟨none, none, some ("ok".toList), some ("neutral".toList)⟩ : Candidate)
          = "positive".toList
        ∨ categoryOf (⟨none, none, some ("ok".toList), some ("neutral".toList)⟩ : Candidate)
          = "negative".toList
        ∨ categoryOf (⟨none, none, some ("ok".toList), some ("neutral".toList)⟩ : Candidate)
          = "neutral".toList
        ∨ categoryOf (⟨none, none, some ("ok".toList), some ("neutral".toList)⟩ : Candidate)
          = "point".toList)
      ∧ ((categoryOf (⟨none, none, some ("ok".toList), some ("neutral".toList)⟩ : Candidate)
            = "positive".toList
          ∨ categoryOf (⟨none, none, some ("ok".toList), some ("neutral".toList)⟩ : Candidate)
            = "negative".toList
          ∨ categoryOf (⟨none, none, some ("ok".toList), some ("neutral".toList)⟩ : Candidate)
            = "neutral".toList) →
          (captionOf (⟨none, none, some ("ok".toList), some ("neutral".toList)⟩ : Candidate)).length ≤ 17)
      ∧ (categoryOf (⟨none, none, some ("ok".toList), some ("neutral".toList)⟩ : Candidate)
            = "point".toList →
          15 ≤ (captionOf (⟨none, none, some ("ok".toList), some ("neutral".toList)⟩ : Candidate)).length
          ∧ (captionOf (⟨none, none, some ("ok".toList), some ("neutral".toList)⟩ : Candidate)).length < 40
          ∧ ("です".toList.isSuffixOf
                (captionOf (⟨none, none, some ("ok".toList), some ("neutral".toList)⟩ : Candidate))
              || "ます".toList.isSuffixOf
                (captionOf (⟨none, none, some ("ok".toList), some ("neutral".toList)⟩ : Candidate)))
              = true)) :=
  ⟨by decide,
   C5_accepted_length_rules
     [⟨none, none, some ("ok".toList), some ("neutral".toList)⟩]
     ⟨none, none, some ("ok".toList), some ("neutral".toList)⟩ (by decide)⟩

/-- C6 (confirmed): normalization is the character-wise map sending the
ideographic full stop and comma to one ASCII space each and fixing every
other character (so `!` and `?` survive); every record accepted by the main
validator is its candidate with the caption replaced by its normalization
and contains neither punctuation mark, and likewise for every accepted side
caption. -/
theorem C6_punctuation_normalized :
    (∀ s : List Char,
        normalizeCaption s = s.map (fun c => if c = '。' ∨ c = '、' then ' ' else c))
    ∧ (∀ c : Char, ¬(c = '。' ∨ c = '、') →
        (if c = '。' ∨ c = '、' then ' ' else c) = c)
    ∧ (∀ (caps : List Candidate) (cap : Candidate), cap ∈ (validateCaps caps).1 →
        (∃ orig ∈ caps, cap = acceptedFrom orig)
        ∧ ∀ ch ∈ captionOf cap, ch ≠ '。' ∧ ch ≠ '、')
    ∧ (∀ (rec : SideRecord) (sc : SideCaption), processSideRecord rec = some sc →
        (∃ t, rec.caption? = some t ∧ sc.caption = normalizeCaption t)
        ∧ ∀ ch ∈ sc.caption, ch ≠ '。' ∧ ch ≠ '、') := by
  refine ⟨normalizeCaption_eq_map, fun c h => if_neg h, ?_, ?_⟩
  · intro caps cap hc
    rcases validateFold_mem caps ([], []) cap hc with h' | h'
    · simp at h'
    · obtain ⟨orig, ho, he, _⟩ := h'
      refine ⟨⟨orig, ho, he⟩, ?_⟩
      rw [he, captionOf_acceptedFrom]
      exact normalizeCaption_no_punct _
  · intro rec sc hp
    rcases hrc : rec.caption? with _ | t
    · simp [processSideRecord, hrc] at hp
    · simp only [processSideRecord, hrc] at hp
      obtain rfl : (⟨rec.start?.getD ("00:00:00:00".toList), normalizeCaption t⟩ : SideCaption) = sc := by
        simpa using hp
      exact ⟨⟨t, rfl, rfl⟩, normalizeCaption_no_punct t⟩

/-- C6 witness: a concrete accepted record and side caption with the
punctuation replaced. -/
theorem C6_punctuation_normalized_witness :
    ((∃ orig ∈ [(⟨none, none, some ("ok。x".toList), some ("neutral".toList)⟩ : Candidate)],
        (⟨none, none, some ("ok x".toList), some ("neutral".toList)⟩ : Candidate)
          = acceptedFrom orig)
      ∧ ∀ ch ∈ captionOf (⟨none, none, some ("ok x".toList), some ("neutral".toList)⟩ : Candidate),
          ch ≠ '。' ∧ ch ≠ '、')
    ∧ ((∃ t, (⟨none, some ("a、b".toList)⟩ : SideRecord).caption? = some t
          ∧ (⟨"00:00:00:00".toList, "a b".toList⟩ : SideCaption).caption = normalizeCaption t)
      ∧ ∀ ch ∈ (⟨"00:00:00:00".toList, "a b".toList⟩ : SideCaption).caption,
          ch ≠ '。' ∧ ch ≠ '、') :=
  ⟨C6_punctuation_normalized.2.2.1
      [⟨none, none, some ("ok。x".toList), some ("neutral".toList)⟩]
      ⟨none, none, some ("ok x".toList), some ("neutral".toList)⟩ (by decide),
   C6_punctuation_normalized.2.2.2 ⟨none, some ("a、b".toList)⟩
      ⟨"00:00:00:00".toList, "a b".toList⟩ (by decide)⟩

/-- C7 (counterexample): when chunk 2 fails to parse, the run halts with the
raw text attached, but the caption accepted from chunk 1 is *not* kept: the
session list keeps its pre-run value `[]` even though chunk 1's validation
accepted a record — `st.stop()` fires before the session assignment
(src/app.py lines 157 and 187). -/
theorem C7_accumulated_not_kept_counterexample :
    runMain []
        [("r1".toList, some [⟨none, none, some ("ok".toList), some ("neutral".toList)⟩]),
         ("oops".toList, none)]
      = ⟨[], some (2, "oops".toList), 2⟩
    ∧ (validateCaps [⟨none, none, some ("ok".toList), some ("neutral".toList)⟩]).1
      = [⟨none, none, some ("ok".toList), some ("neutral".toList)⟩] := by
  exact ⟨by decide, by decide⟩

/-- C7 (amended): if every chunk before some failing chunk parses and that
chunk's cleaned output does not, the run halts at that chunk: the error
carries its verbatim raw text and 1-based index, no later chunk is
consumed, no captions are produced from the failing or later chunks — and
the captions accumulated from earlier chunks are discarded too, the session
keeping its pre-run value. -/
theorem C7_parse_error_halts (prev : List Candidate)
    (pre post : List (List Char × Option (List Candidate))) (raw : List Char)
    (h : ∀ p ∈ pre, p.2 ≠ none) :
    runMain prev (pre ++ (raw, none) :: post)
      = ⟨prev, some (pre.length + 1, raw), pre.length + 1⟩ := by
  obtain ⟨acc', hloop⟩ := runMainLoop_halt pre h [] 0 raw post
  unfold runMain
  rw [hloop]
  simp

/-- C7 witness: the halting behavior at a concrete failing second chunk. -/
theorem C7_parse_error_halts_witness :
    runMain [⟨none, none, some ("p".toList), some ("neutral".toList)⟩]
        [("r1".toList, some []), ("bad".toList, none)]
      = ⟨[⟨none, none, some ("p".toList), some ("neutral".toList)⟩],
         some (2, "bad".toList), 2⟩ :=
  C7_parse_error_halts
    [⟨none, none, some ("p".toList), some ("neutral".toList)⟩]
    [("r1".toList, some [])] [] ("bad".toList) (by decide)

/-- C8 (confirmed, modelled from the spec): every chunk of the token-budget
policy fits the budget — measured as the sum of its lines' token counts,
the quantity the policy's running count tracks — unless it is a single line
whose own count exceeds the budget. -/
theorem C8_token_budget_bound (count : List Char → Nat) (budget : Nat)
    (lines : List (List Char)) (chunk : List (List Char))
    (h : chunk ∈ chunkByTokens count budget lines) :
    (chunk.map count).sum ≤ budget ∨ ∃ l, chunk = [l] ∧ budget < count l :=
  chunkByTokensLoop_inv count budget lines [] [] 0 (by simp) (by simp)
    (Or.inl rfl) chunk h

/-- C8 witness: a concrete run with budget 5 and length as the tokenizer. -/
theorem C8_token_budget_bound_witness :
    (["aaa".toList, "bb".toList] ∈
        chunkByTokens (fun l => l.length) 5 ["aaa".toList, "bb".toList, "cccc".toList])
    ∧ ((["aaa".toList, "bb".toList].map (fun l => l.length)).sum ≤ 5
        ∨ ∃ l, ["aaa".toList, "bb".toList] = [l] ∧ 5 < l.length) :=
  ⟨by decide,
   C8_token_budget_bound (fun l => l.length) 5
     ["aaa".toList, "bb".toList, "cccc".toList] ["aaa".toList, "bb".toList] (by decide)⟩

/-- C9 (confirmed): a line whose prefix does not match the strict
two-digits/colon/two-digits/colon/two-digits pattern is treated as a
continuation line: it is appended to the current buffer and neither the
emitted chunks nor `start_time` change, so chunking never aborts on a
malformed timecode prefix. -/
theorem C9_malformed_prefix_is_continuation (st : ChunkState) (line : List Char)
    (h : matchTimecode line = none) :
    chunkStep st line = ⟨st.chunks, st.buf ++ [line], st.start_time⟩ := by
  simp [chunkStep, h]

/-- C9 witness: a line that looks like a timecode but has a three-digit
hour field is a continuation line. -/
theorem C9_malformed_prefix_is_continuation_witness :
    matchTimecode ("123:45:67 oops\n".toList) = none
    ∧ chunkStep ⟨[], [], none⟩ ("123:45:67 oops\n".toList)
        = ⟨[], [("123:45:67 oops\n".toList)], none⟩ :=
  ⟨by decide,
   C9_malformed_prefix_is_continuation ⟨[], [], none⟩ ("123:45:67 oops\n".toList) (by decide)⟩

/-- C10 (counterexample): the `KeyError` raised by a parsed record with no
`caption` key is *not* unhandled — the enclosing `except Exception`
(src/app.py line 277) catches it and the loop continues: after such a
record, a later chapter is still processed and its caption produced, with
no halt. -/
theorem C10_keyerror_is_caught_counterexample :
    processSideRecord ⟨none, none⟩ = none
    ∧ runSideLoop
        [SideInput.record ⟨none, none⟩,
         SideInput.record ⟨some ("00:00:01:00".toList), some ("ok".toList)⟩] []
      = ([⟨"00:00:01:00".toList, "ok".toList⟩], none) := by
  exact ⟨rfl, rfl⟩

/-- C10 (amended): only a missing `start` is defaulted (to `00:00:00:00`);
a parsed record lacking `caption` is neither accepted nor reported as a
parse failure — its `KeyError` escapes the JSON handler but is caught by
the surrounding generic handler, and the loop continues with the next
chapter. -/
theorem C10_missing_caption_handling :
    (∀ s : Option (List Char), processSideRecord ⟨s, none⟩ = none)
    ∧ (∀ (s : Option (List Char)) (rest : List SideInput) (acc : List SideCaption),
        runSideLoop (SideInput.record ⟨s, none⟩ :: rest) acc = runSideLoop rest acc)
    ∧ (∀ cap : List Char,
        processSideRecord ⟨none, some cap⟩
          = some ⟨"00:00:00:00".toList, normalizeCaption cap⟩)
    ∧ (∀ s cap : List Char,
        processSideRecord ⟨some s, some cap⟩ = some ⟨s, normalizeCaption cap⟩) :=
  ⟨fun _ => rfl, fun _ _ _ => rfl, fun _ => rfl, fun _ _ => rfl⟩
